import Mathlib

/- Verification development for the orientation-field refinement engine in
   src/orient.cc.  The C floating point values are modelled by real numbers;
   real division by zero is the Lean junk value 0 where the C code would
   produce NaN, and the well-definedness side conditions (nonzero denominators)
   are tracked explicitly in the theorems. -/

noncomputable section

open Classical

/-- Integer pair, modelling cv Vec2i. -/
abbrev Vec2i := ℤ × ℤ

/-- Unsigned byte triple, modelling cv Vec3b.  The channel values are naturals;
    ℕ truncated subtraction models the saturating uchar subtraction of cv. -/
abbrev Vec3b := ℕ × ℕ × ℕ

/-- One grid cell, mirroring struct Pixel (orient.cc lines 19-28). -/
structure Pixel where
  position : Vec2i
  cluster : ℤ
  dx : ℝ
  dy : ℝ
  angle : ℝ
  magnitude : ℝ
  weight : ℝ

/-- The pixel grid, modelling vector of vector of Pixel; the row and column
    bounds are carried separately by the operations. -/
abbrev PixelMap := ℕ → ℕ → Pixel

/-- Euclidean norm of a Vec2i, as used for the spatial distance. -/
def vec2Norm (v : Vec2i) : ℝ := Real.sqrt ((v.1 ^ 2 + v.2 ^ 2 : ℤ) : ℝ)

/-- Componentwise Vec2i subtraction (exact int arithmetic in cv). -/
def vec2Sub (a b : Vec2i) : Vec2i := (a.1 - b.1, a.2 - b.2)

/-- Euclidean norm of a Vec3b. -/
def vec3Norm (v : Vec3b) : ℝ := Real.sqrt ((v.1 ^ 2 + v.2.1 ^ 2 + v.2.2 ^ 2 : ℕ) : ℝ)

/-- Saturating componentwise Vec3b subtraction: cv saturate_cast to uchar
    clamps negative differences to 0, which is ℕ truncated subtraction. -/
def vec3Sub (a b : Vec3b) : Vec3b := (a.1 - b.1, a.2.1 - b.2.1, a.2.2 - b.2.2)

/-- GaussianFilter evaluation (orient.cc lines 50-53). -/
def GaussianFilter (sigma miu x : ℝ) : ℝ :=
  Real.exp (-0.5 * ((x - miu) / sigma) ^ 2) / (sigma * Real.sqrt (2 * Real.pi))

/-- bilateral_filter (orient.cc lines 55-71): sets each neighbor weight to the
    product of the spatial Gaussian (sigma 2) at the grid distance and the
    color Gaussian (sigma 10) at the photometric distance. -/
def bilateral_filter (centerPosition : Vec2i) (neighbors : List Pixel)
    (color_image : ℤ → ℤ → Vec3b) : List Pixel :=
  let center_color := color_image centerPosition.1 centerPosition.2
  neighbors.map fun nb =>
    { nb with
        weight := GaussianFilter 2 0 (vec2Norm (vec2Sub centerPosition nb.position)) *
          GaussianFilter 10 0
            (vec3Norm (vec3Sub center_color (color_image nb.position.1 nb.position.2))) }

/-- Accumulated sum of the neighbor weights (orient.cc line 79). -/
def sumWeights : List Pixel → ℝ
  | [] => 0
  | p :: rest => p.weight + sumWeights rest

/-- Accumulated sum of weight times magnitude (orient.cc line 80). -/
def sumWeightedMagnitudes : List Pixel → ℝ
  | [] => 0
  | p :: rest => p.weight * p.magnitude + sumWeightedMagnitudes rest

/-- interpolate_magnitude (orient.cc lines 73-83). -/
def interpolate_magnitude (neighbors : List Pixel) : ℝ :=
  sumWeightedMagnitudes neighbors / sumWeights neighbors

/-- Insertion step for the sort by comparePixelByAngle (orient.cc lines 33-36). -/
def insertByAngle (p : Pixel) : List Pixel → List Pixel
  | [] => [p]
  | q :: rest => if p.angle < q.angle then p :: q :: rest else q :: insertByAngle p rest

/-- The std sort call of interpolate_angle (orient.cc line 88), modelled as
    insertion sort with the comparePixelByAngle ordering.  Any comparison sort
    yields the same angle-ascending multiset, which is all later code uses. -/
def sortByAngle : List Pixel → List Pixel
  | [] => []
  | p :: rest => insertByAngle p (sortByAngle rest)

/-- One step of the minDiff scan of interpolate_angle (orient.cc lines 91-97):
    the candidate at loop index i = j + 1 is angle(i-1) + pi - angle(i). -/
def splitStep (a : List ℝ) (st : ℝ × ℕ) (j : ℕ) : ℝ × ℕ :=
  let d := a.getD j 0 + Real.pi - a.getD (j + 1) 0
  if d < st.1 then (d, j + 1) else st

/-- The full minDiff and minIndex scan (orient.cc lines 89-97), starting from
    last angle minus first angle at index 0. -/
def splitFold (a : List ℝ) : ℝ × ℕ :=
  (List.range (a.length - 1)).foldl (splitStep a) (a.getLastD 0 - a.headI, 0)

/-- The split index minIndex chosen by interpolate_angle. -/
def splitIndex (a : List ℝ) : ℕ := (splitFold a).2

/-- The shifted weighted angle accumulation of interpolate_angle (orient.cc
    lines 99-109), with the running loop index i made explicit: entries at
    index below the split get pi added before weighting. -/
def angleNumerFrom (split i : ℕ) : List Pixel → ℝ
  | [] => 0
  | p :: rest =>
      (if i < split then p.angle + Real.pi else p.angle) * (p.weight * p.magnitude)
        + angleNumerFrom split (i + 1) rest

/-- Accumulated sum of weight times magnitude used as the averaging mass
    (orient.cc lines 102 and 108). -/
def sumMagWeights : List Pixel → ℝ
  | [] => 0
  | p :: rest => p.weight * p.magnitude + sumMagWeights rest

/-- interpolate_angle (orient.cc lines 86-115): sort by angle, locate the split
    index, average the shifted angles with weight times magnitude masses, and
    renormalize by subtracting pi when the mean is at least pi over 2. -/
def interpolate_angle (neighbors : List Pixel) : ℝ :=
  let sorted := sortByAngle neighbors
  let minIndex := splitIndex (sorted.map Pixel.angle)
  let avgAngle := angleNumerFrom minIndex 0 sorted / sumMagWeights sorted
  if avgAngle ≥ Real.pi / 2 then avgAngle - Real.pi else avgAngle

/-- The clipped k by k window around cell (r,c) in row-major order (orient.cc
    lines 131-141).  ℕ truncated subtraction r - k / 2 equals max 0 (r - k / 2). -/
def windowCoords (r c k rows cols : ℕ) : List (ℕ × ℕ) :=
  let upMost := r - k / 2
  let downMost := min (rows - 1) (r + k / 2)
  let leftMost := c - k / 2
  let rightMost := min (cols - 1) (c + k / 2)
  ((List.range (downMost + 1 - upMost)).map (upMost + ·)).flatMap fun rr =>
    ((List.range (rightMost + 1 - leftMost)).map (leftMost + ·)).map fun cc => (rr, cc)

/-- Candidate collection of updateCell (orient.cc lines 140-147): the cluster
    test reads the live map pm, the admitted record and the magnitude gate read
    the snapshot old. -/
def qualifiedNeighbors (r c k : ℕ) (pm old : PixelMap) (rows cols : ℕ)
    (ignore_mag : Bool) : List Pixel :=
  (windowCoords r c k rows cols).filterMap fun rc =>
    if (pm rc.1 rc.2).cluster = (pm r c).cluster ∧
        (ignore_mag = true ∨ (old rc.1 rc.2).magnitude ≥ (old r c).magnitude)
    then some (old rc.1 rc.2) else none

/-- Pointwise update of one grid cell. -/
def setPixel (pm : PixelMap) (r c : ℕ) (p : Pixel) : PixelMap :=
  fun x y => if x = r ∧ y = c then p else pm x y

/-- updateCell (orient.cc lines 128-160): with a single candidate the cell is
    untouched, otherwise its magnitude and angle are recomputed from the
    bilateral weighted candidates. -/
def updateCell (r c k : ℕ) (pm old : PixelMap) (rows cols : ℕ)
    (color_image : ℤ → ℤ → Vec3b) (ignore_mag : Bool) : PixelMap :=
  let qn := qualifiedNeighbors r c k pm old rows cols ignore_mag
  if qn.length = 1 then pm
  else
    let weighted := bilateral_filter ((r : ℤ), (c : ℤ)) qn color_image
    setPixel pm r c
      { pm r c with
          magnitude := interpolate_magnitude weighted
          angle := interpolate_angle weighted }

/-- iterate (orient.cc lines 162-176): snapshot the grid, then update every
    cell in row-major order against the snapshot. -/
def iterate (k rows cols : ℕ) (pm : PixelMap) (color_image : ℤ → ℤ → Vec3b)
    (ignore_mag : Bool) : PixelMap :=
  (List.range rows).foldl
    (fun acc r =>
      (List.range cols).foldl
        (fun acc2 c => updateCell r c k acc2 pm rows cols color_image ignore_mag) acc)
    pm

/-- The value a sweep assigns to one in-bounds cell, computed from the snapshot
    alone; iterate is proved to realize this pointwise. -/
def sweepValue (r c k : ℕ) (old : PixelMap) (rows cols : ℕ)
    (color_image : ℤ → ℤ → Vec3b) (ignore_mag : Bool) : Pixel :=
  let qn := qualifiedNeighbors r c k old old rows cols ignore_mag
  if qn.length = 1 then old r c
  else
    let weighted := bilateral_filter ((r : ℤ), (c : ℤ)) qn color_image
    { old r c with
        magnitude := interpolate_magnitude weighted
        angle := interpolate_angle weighted }

/-- The driver loop of main (orient.cc lines 355-361): sweep index i runs the
    gated policy for i below 20 and the unconstrained policy afterwards, with
    window size 7. -/
def mainLoop (rows cols : ℕ) (color_image : ℤ → ℤ → Vec3b) (pm : PixelMap) :
    ℕ → PixelMap
  | 0 => pm
  | i + 1 =>
      if i < 20 then
        iterate 7 rows cols (mainLoop rows cols color_image pm i) color_image false
      else
        iterate 7 rows cols (mainLoop rows cols color_image pm i) color_image true

/-- Driver generalization: run one sweep per flag in the list, in order. -/
def runFlags (k rows cols : ℕ) (color_image : ℤ → ℤ → Vec3b) :
    List Bool → PixelMap → PixelMap
  | [], pm => pm
  | f :: fs, pm => runFlags k rows cols color_image fs (iterate k rows cols pm color_image f)

/-- Construction-time angle (orient.cc lines 305 and 320): atan of dx divided
    by minus dy.  The cv divide maps division by zero to zero, matching Lean
    real division. -/
def initAngle (dx dy : ℝ) : ℝ := Real.arctan (dx / (-dy))

/-- The loop candidate value compared by the minDiff scan, as a function of the
    candidate split position: position 0 carries the initial value last minus
    first, position i + 1 carries angle(i) + pi - angle(i+1). -/
def diffVal (a : List ℝ) : ℕ → ℝ
  | 0 => a.getLastD 0 - a.headI
  | i + 1 => a.getD i 0 + Real.pi - a.getD (i + 1) 0

/-- Modelled from the spec: the angular gap between consecutive sorted angles
    on the circle of circumference pi, index 0 being the wraparound gap between
    the last point and the first plus pi. -/
def specGap (a : List ℝ) : ℕ → ℝ
  | 0 => a.headI + Real.pi - a.getLastD 0
  | i + 1 => a.getD (i + 1) 0 - a.getD i 0

/-- Modelled from the spec: add pi to the entries before the split index and
    leave entries at or after the split unchanged. -/
def circularShift (split : ℕ) (angles : List ℝ) : List ℝ :=
  (angles.take split).map (· + Real.pi) ++ angles.drop split

/-- Modelled from the spec: candidate selection whose strength gate compares
    the separately retained original construction-time magnitudes (the spec
    lifecycle paragraph), while the admitted records come from the current
    state.  The code itself retains no such original magnitudes. -/
def qualifiedNeighborsOriginalGate (r c k : ℕ) (pm orig : PixelMap)
    (rows cols : ℕ) : List Pixel :=
  (windowCoords r c k rows cols).filterMap fun rc =>
    if (pm rc.1 rc.2).cluster = (pm r c).cluster ∧
        (orig rc.1 rc.2).magnitude ≥ (orig r c).magnitude
    then some (pm rc.1 rc.2) else none

lemma mem_insertByAngle {x p : Pixel} {l : List Pixel} :
    x ∈ insertByAngle p l ↔ x = p ∨ x ∈ l := by
  induction l with
  | nil => simp [insertByAngle]
  | cons q rest ih =>
      by_cases h : p.angle < q.angle
      · simp [insertByAngle, h]
      · simp [insertByAngle, h, ih, or_left_comm]

lemma mem_sortByAngle {x : Pixel} {l : List Pixel} : x ∈ sortByAngle l ↔ x ∈ l := by
  induction l with
  | nil => simp [sortByAngle]
  | cons p rest ih =>
      simp [sortByAngle, mem_insertByAngle, ih]

lemma insertByAngle_ne_nil {p : Pixel} {l : List Pixel} : insertByAngle p l ≠ [] := by
  cases l with
  | nil => simp [insertByAngle]
  | cons q rest =>
      by_cases h : p.angle < q.angle <;> simp [insertByAngle, h]

lemma sortByAngle_ne_nil {l : List Pixel} (h : l ≠ []) : sortByAngle l ≠ [] := by
  cases l with
  | nil => exact absurd rfl h
  | cons p rest => simpa [sortByAngle] using insertByAngle_ne_nil

lemma pairwise_insertByAngle {p : Pixel} {l : List Pixel}
    (h : l.Pairwise fun a b => a.angle ≤ b.angle) :
    (insertByAngle p l).Pairwise fun a b => a.angle ≤ b.angle := by
  induction l with
  | nil => simp [insertByAngle]
  | cons q rest ih =>
      rw [List.pairwise_cons] at h
      obtain ⟨hq, hrest⟩ := h
      by_cases hpq : p.angle < q.angle
      · rw [insertByAngle, if_pos hpq, List.pairwise_cons, List.pairwise_cons]
        refine ⟨?_, hq, hrest⟩
        intro b hb
        rcases List.mem_cons.mp hb with hb2 | hb2
        · subst hb2
          exact le_of_lt hpq
        · exact le_trans (le_of_lt hpq) (hq b hb2)
      · rw [insertByAngle, if_neg hpq, List.pairwise_cons]
        refine ⟨?_, ih hrest⟩
        intro b hb
        rcases mem_insertByAngle.mp hb with hb2 | hb2
        · subst hb2
          exact le_of_not_lt hpq
        · exact hq b hb2

lemma pairwise_sortByAngle (l : List Pixel) :
    (sortByAngle l).Pairwise fun a b => a.angle ≤ b.angle := by
  induction l with
  | nil => simp [sortByAngle]
  | cons p rest ih => exact pairwise_insertByAngle ih

lemma sumMagWeights_nonneg {l : List Pixel}
    (h : ∀ p ∈ l, 0 ≤ p.weight * p.magnitude) : 0 ≤ sumMagWeights l := by
  induction l with
  | nil => simp [sumMagWeights]
  | cons p rest ih =>
      rw [sumMagWeights]
      have hp := h p (by simp)
      have hr := ih fun q hq => h q (by simp [hq])
      linarith

lemma sumMagWeights_pos {l : List Pixel} (hne : l ≠ [])
    (h : ∀ p ∈ l, 0 < p.weight * p.magnitude) : 0 < sumMagWeights l := by
  cases l with
  | nil => exact absurd rfl hne
  | cons p rest =>
      rw [sumMagWeights]
      have hp := h p (by simp)
      have hr : 0 ≤ sumMagWeights rest :=
        sumMagWeights_nonneg fun q hq => le_of_lt (h q (by simp [hq]))
      linarith

lemma sumWeights_nonneg {l : List Pixel}
    (h : ∀ p ∈ l, 0 ≤ p.weight) : 0 ≤ sumWeights l := by
  induction l with
  | nil => simp [sumWeights]
  | cons p rest ih =>
      rw [sumWeights]
      have hp := h p (by simp)
      have hr := ih fun q hq => h q (by simp [hq])
      linarith

lemma sumWeights_pos {l : List Pixel} (hne : l ≠ [])
    (h : ∀ p ∈ l, 0 < p.weight) : 0 < sumWeights l := by
  cases l with
  | nil => exact absurd rfl hne
  | cons p rest =>
      rw [sumWeights]
      have hp := h p (by simp)
      have hr : 0 ≤ sumWeights rest :=
        sumWeights_nonneg fun q hq => le_of_lt (h q (by simp [hq]))
      linarith

lemma angleNumerFrom_lower {l : List Pixel} (split : ℕ) :
    ∀ i, (∀ p ∈ l, -(Real.pi / 2) ≤ p.angle ∧ 0 ≤ p.weight * p.magnitude) →
      -(Real.pi / 2) * sumMagWeights l ≤ angleNumerFrom split i l := by
  induction l with
  | nil => intro i _; simp [angleNumerFrom, sumMagWeights]
  | cons p rest ih =>
      intro i h
      rw [angleNumerFrom, sumMagWeights]
      have hp := h p (by simp)
      have htail := ih (i + 1) fun q hq => h q (by simp [hq])
      have hπ : (0 : ℝ) ≤ Real.pi := le_of_lt Real.pi_pos
      have hval : -(Real.pi / 2) ≤ if i < split then p.angle + Real.pi else p.angle := by
        split_ifs <;> linarith [hp.1]
      have hterm : -(Real.pi / 2) * (p.weight * p.magnitude) ≤
          (if i < split then p.angle + Real.pi else p.angle) * (p.weight * p.magnitude) :=
        mul_le_mul_of_nonneg_right hval hp.2
      linarith [hterm, htail]

lemma angleNumerFrom_upper {l : List Pixel} (split : ℕ) (hne : l ≠ []) :
    ∀ i, (∀ p ∈ l, p.angle < Real.pi / 2 ∧ 0 < p.weight * p.magnitude) →
      angleNumerFrom split i l < 3 * Real.pi / 2 * sumMagWeights l := by
  induction l with
  | nil => exact absurd rfl hne
  | cons p rest ih =>
      intro i h
      rw [angleNumerFrom, sumMagWeights]
      have hp := h p (by simp)
      have hπ : (0 : ℝ) < Real.pi := Real.pi_pos
      have hval : (if i < split then p.angle + Real.pi else p.angle) < 3 * Real.pi / 2 := by
        split_ifs <;> linarith [hp.1]
      have hterm : (if i < split then p.angle + Real.pi else p.angle) * (p.weight * p.magnitude)
          < 3 * Real.pi / 2 * (p.weight * p.magnitude) :=
        mul_lt_mul_of_pos_right hval hp.2
      cases rest with
      | nil =>
          simp only [angleNumerFrom, sumMagWeights]
          linarith [hterm]
      | cons q rest2 =>
          have htail := ih (by simp) (i + 1) fun q2 hq2 => h q2 (by simp [hq2])
          linarith [hterm, htail]

lemma interpolate_angle_mem_Ico {l : List Pixel} (hne : l ≠ [])
    (h : ∀ p ∈ l, (-(Real.pi / 2) ≤ p.angle ∧ p.angle < Real.pi / 2) ∧
      0 < p.weight * p.magnitude) :
    -(Real.pi / 2) ≤ interpolate_angle l ∧ interpolate_angle l < Real.pi / 2 := by
  have hs : ∀ p ∈ sortByAngle l, (-(Real.pi / 2) ≤ p.angle ∧ p.angle < Real.pi / 2) ∧
      0 < p.weight * p.magnitude := fun p hp => h p (mem_sortByAngle.mp hp)
  have hsne : sortByAngle l ≠ [] := sortByAngle_ne_nil hne
  have hW : 0 < sumMagWeights (sortByAngle l) :=
    sumMagWeights_pos hsne fun p hp => (hs p hp).2
  set split := splitIndex ((sortByAngle l).map Pixel.angle) with hsplit
  have hlow := @angleNumerFrom_lower (sortByAngle l) split 0
    fun p hp => ⟨(hs p hp).1.1, le_of_lt (hs p hp).2⟩
  have hup := @angleNumerFrom_upper (sortByAngle l) split hsne 0
    fun p hp => ⟨(hs p hp).1.2, (hs p hp).2⟩
  have havg_low : -(Real.pi / 2) ≤
      angleNumerFrom split 0 (sortByAngle l) / sumMagWeights (sortByAngle l) := by
    rw [le_div_iff₀ hW]
    exact hlow
  have havg_up : angleNumerFrom split 0 (sortByAngle l) / sumMagWeights (sortByAngle l)
      < 3 * Real.pi / 2 := by
    rw [div_lt_iff₀ hW]
    exact hup
  have hπ : (0 : ℝ) < Real.pi := Real.pi_pos
  rw [interpolate_angle]
  simp only [← hsplit]
  split_ifs with hbr
  · constructor <;> linarith
  · push_neg at hbr
    constructor <;> linarith

lemma diffVal_eq_pi_sub_specGap (a : List ℝ) (j : ℕ) :
    diffVal a j = Real.pi - specGap a j := by
  cases j with
  | zero =>
      rw [diffVal, specGap]
      ring
  | succ i =>
      rw [diffVal, specGap]
      ring

lemma splitFold_step_spec (a : List ℝ) :
    ∀ m, (((List.range m).foldl (splitStep a) (a.getLastD 0 - a.headI, 0)).1
            = diffVal a (((List.range m).foldl (splitStep a) (a.getLastD 0 - a.headI, 0)).2))
      ∧ ∀ j ≤ m, ((List.range m).foldl (splitStep a) (a.getLastD 0 - a.headI, 0)).1
          ≤ diffVal a j := by
  intro m
  induction m with
  | zero =>
      constructor
      · simp [diffVal]
      · intro j hj
        have hj0 : j = 0 := Nat.le_zero.mp hj
        subst hj0
        simp [diffVal]
  | succ m ih =>
      rw [List.range_succ, List.foldl_append, List.foldl_cons, List.foldl_nil]
      obtain ⟨ih1, ih2⟩ := ih
      rw [splitStep]
      by_cases hd : a.getD m 0 + Real.pi - a.getD (m + 1) 0
          < ((List.range m).foldl (splitStep a) (a.getLastD 0 - a.headI, 0)).1
      · rw [if_pos hd]
        refine ⟨by rw [diffVal], ?_⟩
        intro j hj
        rcases Nat.eq_or_lt_of_le hj with he | hl
        · rw [he, diffVal]
        · exact le_trans (le_of_lt hd) (ih2 j (by omega))
      · rw [if_neg hd]
        refine ⟨ih1, ?_⟩
        intro j hj
        rcases Nat.eq_or_lt_of_le hj with he | hl
        · rw [he, diffVal]
          exact le_of_not_lt hd
        · exact ih2 j (by omega)

lemma splitIndex_gap_maximal (a : List ℝ) :
    ∀ j < a.length, specGap a j ≤ specGap a (splitIndex a) := by
  intro j hj
  have h := splitFold_step_spec a (a.length - 1)
  have h1 : (splitFold a).1 = diffVal a (splitFold a).2 := h.1
  have h2 : (splitFold a).1 ≤ diffVal a j := h.2 j (by omega)
  rw [h1, diffVal_eq_pi_sub_specGap, diffVal_eq_pi_sub_specGap] at h2
  rw [splitIndex]
  linarith

lemma circularShift_zero (angles : List ℝ) : circularShift 0 angles = angles := by
  simp [circularShift]

lemma circularShift_succ_cons (s : ℕ) (a : ℝ) (as : List ℝ) :
    circularShift (s + 1) (a :: as) = (a + Real.pi) :: circularShift s as := by
  simp [circularShift]

lemma angleNumerFrom_eq_shifted (l : List Pixel) : ∀ split i,
    angleNumerFrom split i l =
      (List.zipWith (fun a w => a * w) (circularShift (split - i) (l.map Pixel.angle))
        (l.map fun p => p.weight * p.magnitude)).sum := by
  induction l with
  | nil =>
      intro split i
      simp [angleNumerFrom, circularShift]
  | cons p rest ih =>
      intro split i
      by_cases h : i < split
      · have hs : split - i = (split - (i + 1)) + 1 := by omega
        rw [angleNumerFrom, List.map_cons, List.map_cons, hs, circularShift_succ_cons,
          List.zipWith_cons_cons, List.sum_cons, if_pos h, ih split (i + 1)]
      · have hs : split - i = 0 := by omega
        have hs2 : split - (i + 1) = 0 := by omega
        rw [angleNumerFrom, List.map_cons, List.map_cons, hs, circularShift_zero,
          if_neg h, ih split (i + 1), hs2, circularShift_zero,
          List.zipWith_cons_cons, List.sum_cons]

lemma interpolate_angle_singleton (p : Pixel) (hw : p.weight * p.magnitude ≠ 0) :
    interpolate_angle [p] =
      if p.angle ≥ Real.pi / 2 then p.angle - Real.pi else p.angle := by
  have hsort : sortByAngle [p] = [p] := rfl
  have hidx : splitIndex ([p].map Pixel.angle) = 0 := by
    rw [splitIndex, splitFold]
    simp
  rw [interpolate_angle, hsort, hidx]
  simp only [angleNumerFrom, sumMagWeights, Nat.lt_irrefl, if_false]
  rw [add_zero, add_zero, mul_div_assoc, div_self hw, mul_one]

/-- Concrete seam test entry at plus 89 degrees with unit weight and magnitude. -/
def pixSeamA : Pixel := ⟨(0, 0), 0, 0, 0, 89 * Real.pi / 180, 1, 1⟩

/-- Concrete seam test entry at minus 89 degrees with unit weight and magnitude. -/
def pixSeamB : Pixel := ⟨(0, 0), 0, 0, 0, -(89 * Real.pi / 180), 1, 1⟩

lemma seam_pair_eval : interpolate_angle [pixSeamA, pixSeamB] = -(Real.pi / 2) := by
  have hπ : (0 : ℝ) < Real.pi := Real.pi_pos
  have hAB : ¬ (pixSeamA.angle < pixSeamB.angle) := by
    show ¬ (89 * Real.pi / 180 < -(89 * Real.pi / 180))
    push_neg
    nlinarith
  have hsort : sortByAngle [pixSeamA, pixSeamB] = [pixSeamB, pixSeamA] := by
    simp only [sortByAngle, insertByAngle, if_neg hAB]
  have hB : pixSeamB.angle = -(89 * Real.pi / 180) := rfl
  have hA : pixSeamA.angle = 89 * Real.pi / 180 := rfl
  have hBw : pixSeamB.weight = 1 := rfl
  have hBm : pixSeamB.magnitude = 1 := rfl
  have hAw : pixSeamA.weight = 1 := rfl
  have hAm : pixSeamA.magnitude = 1 := rfl
  have hcond : pixSeamB.angle + Real.pi - pixSeamA.angle
      < pixSeamA.angle - pixSeamB.angle := by
    rw [hA, hB]
    nlinarith
  have hidx : splitIndex ([pixSeamB, pixSeamA].map Pixel.angle) = 1 := by
    rw [splitIndex, splitFold]
    simp only [List.map_cons, List.map_nil, List.length_cons, List.length_nil]
    norm_num
    rw [(by decide : List.range 1 = [0]), List.foldl_cons, List.foldl_nil]
    simp only [splitStep, List.getD_cons_zero, List.getD_cons_succ]
    rw [if_pos hcond]
  have hnum : angleNumerFrom 1 0 [pixSeamB, pixSeamA] = Real.pi := by
    simp only [angleNumerFrom, hA, hB, hAw, hAm, hBw, hBm]
    norm_num
    try ring
  have hden : sumMagWeights [pixSeamB, pixSeamA] = 2 := by
    simp only [sumMagWeights, hAw, hAm, hBw, hBm]
    norm_num
  rw [interpolate_angle, hsort, hidx, hnum, hden]
  rw [if_pos (le_refl (Real.pi / 2))]
  ring

/-- C1 counterexample: on the seam pair of 89 degrees and minus 89 degrees with
    unit weights and magnitudes, interpolate_angle returns minus pi over 2, so
    its distance to plus pi over 2 is pi and the result is not approximately
    pi over 2 as the claim states. -/
theorem c1_circular_mean_seam_cex :
    interpolate_angle [pixSeamA, pixSeamB] = -(Real.pi / 2)
      ∧ ¬ |interpolate_angle [pixSeamA, pixSeamB] - Real.pi / 2| < 1 := by
  refine ⟨seam_pair_eval, ?_⟩
  rw [seam_pair_eval]
  have heq : -(Real.pi / 2) - Real.pi / 2 = -Real.pi := by ring
  rw [heq, abs_neg, abs_of_pos Real.pi_pos, not_lt]
  linarith [Real.pi_gt_three]

/-- C1 (amended): the circular mean of the seam pair equals minus pi over 2,
    which is the mod-pi equivalent of 90 degrees and the boundary of the range
    the code actually produces, and the result is not approximately 0; the
    value plus pi over 2 itself is never returned because the renormalization
    maps any mean at or above pi over 2 down by pi. -/
theorem c1_circular_mean_seam :
    interpolate_angle [pixSeamA, pixSeamB] = -(Real.pi / 2)
      ∧ interpolate_angle [pixSeamA, pixSeamB] + Real.pi = Real.pi / 2
      ∧ 1 ≤ |interpolate_angle [pixSeamA, pixSeamB] - 0| := by
  refine ⟨seam_pair_eval, by rw [seam_pair_eval]; ring, ?_⟩
  rw [seam_pair_eval, sub_zero, abs_neg,
    abs_of_pos (by linarith [Real.pi_pos] : (0 : ℝ) < Real.pi / 2)]
  linarith [Real.pi_gt_three]

/-- C8: for a nonempty candidate list, after sorting by angle ascending, the
    split index chosen by the minDiff scan achieves the maximal angular gap
    (with index 0 denoting the wraparound gap between the last point and the
    first plus pi), the sorted list is indeed ascending, and the weighted
    numerator of the average shifts exactly the entries before the split by pi. -/
theorem c8_split_equiv (ns : List Pixel) (hne : ns ≠ []) :
    (∀ j < ((sortByAngle ns).map Pixel.angle).length,
        specGap ((sortByAngle ns).map Pixel.angle) j ≤
          specGap ((sortByAngle ns).map Pixel.angle)
            (splitIndex ((sortByAngle ns).map Pixel.angle)))
      ∧ (sortByAngle ns).Pairwise (fun a b => a.angle ≤ b.angle)
      ∧ angleNumerFrom (splitIndex ((sortByAngle ns).map Pixel.angle)) 0 (sortByAngle ns)
          = (List.zipWith (fun a w => a * w)
              (circularShift (splitIndex ((sortByAngle ns).map Pixel.angle))
                ((sortByAngle ns).map Pixel.angle))
              ((sortByAngle ns).map fun p => p.weight * p.magnitude)).sum := by
  refine ⟨fun j hj => splitIndex_gap_maximal _ j hj, pairwise_sortByAngle ns, ?_⟩
  have h := angleNumerFrom_eq_shifted (sortByAngle ns)
    (splitIndex ((sortByAngle ns).map Pixel.angle)) 0
  simpa using h

/-- Unit test entry with angle 0 and unit weight and magnitude. -/
def pixUnit : Pixel := ⟨(0, 0), 0, 0, 0, 0, 1, 1⟩

/-- Witness for C8 on the singleton list. -/
theorem c8_split_equiv_witness :
    specGap ((sortByAngle [pixUnit]).map Pixel.angle) 0 ≤
      specGap ((sortByAngle [pixUnit]).map Pixel.angle)
        (splitIndex ((sortByAngle [pixUnit]).map Pixel.angle)) :=
  (c8_split_equiv [pixUnit] (by simp)).1 0 (by simp [sortByAngle, insertByAngle])

/-- C9 (amended): a single entry with angle strictly below pi over 2 and
    positive effective weight is returned unchanged by interpolate_angle; the
    boundary angle exactly pi over 2 is excluded (see the counterexample). -/
theorem c9_single_entry_identity (p : Pixel) (h1 : -(Real.pi / 2) < p.angle)
    (h2 : p.angle < Real.pi / 2) (h3 : 0 < p.weight * p.magnitude) :
    interpolate_angle [p] = p.angle := by
  rw [interpolate_angle_singleton p (ne_of_gt h3)]
  exact if_neg (not_le.mpr h2)

/-- Witness for C9 at the zero angle with unit weight and magnitude. -/
theorem c9_single_entry_identity_witness :
    interpolate_angle [pixUnit] = pixUnit.angle :=
  c9_single_entry_identity pixUnit
    (by show -(Real.pi / 2) < (0 : ℝ); linarith [Real.pi_pos])
    (by show (0 : ℝ) < Real.pi / 2; linarith [Real.pi_pos])
    (by show (0 : ℝ) < 1 * 1; norm_num)

/-- Boundary test entry with angle exactly pi over 2. -/
def pixHalfPi : Pixel := ⟨(0, 0), 0, 0, 0, Real.pi / 2, 1, 1⟩

/-- C9 counterexample: at the boundary angle exactly pi over 2 (claimed to be
    in the identity domain), the code renormalizes and returns minus pi over 2,
    not the input angle. -/
theorem c9_single_entry_identity_cex :
    interpolate_angle [pixHalfPi] = -(Real.pi / 2)
      ∧ interpolate_angle [pixHalfPi] ≠ pixHalfPi.angle := by
  have h1 : pixHalfPi.weight * pixHalfPi.magnitude ≠ 0 := by
    show (1 : ℝ) * 1 ≠ 0
    norm_num
  have h2 : pixHalfPi.angle = Real.pi / 2 := rfl
  have heval : interpolate_angle [pixHalfPi] = -(Real.pi / 2) := by
    rw [interpolate_angle_singleton pixHalfPi h1, h2, if_pos (le_refl (Real.pi / 2))]
    ring
  refine ⟨heval, ?_⟩
  rw [heval, h2]
  intro hcontra
  have hπ := Real.pi_pos
  linarith [hcontra]

lemma updateCell_apply_ne {r c k x y : ℕ} {pm old : PixelMap} {rows cols : ℕ}
    {color : ℤ → ℤ → Vec3b} {flag : Bool} (h : ¬(x = r ∧ y = c)) :
    updateCell r c k pm old rows cols color flag x y = pm x y := by
  rw [updateCell]
  split_ifs with hlen
  · rfl
  · rw [setPixel, if_neg h]

lemma sweepValue_cluster (r c k : ℕ) (old : PixelMap) (rows cols : ℕ)
    (color : ℤ → ℤ → Vec3b) (flag : Bool) :
    (sweepValue r c k old rows cols color flag).cluster = (old r c).cluster := by
  rw [sweepValue]
  split_ifs <;> rfl

lemma sweepValue_position (r c k : ℕ) (old : PixelMap) (rows cols : ℕ)
    (color : ℤ → ℤ → Vec3b) (flag : Bool) :
    (sweepValue r c k old rows cols color flag).position = (old r c).position := by
  rw [sweepValue]
  split_ifs <;> rfl

lemma qualifiedNeighbors_cluster_congr {r c k rows cols : ℕ} {flag : Bool}
    {pm pm2 old : PixelMap}
    (h : ∀ x y, (pm2 x y).cluster = (pm x y).cluster) :
    qualifiedNeighbors r c k pm2 old rows cols flag
      = qualifiedNeighbors r c k pm old rows cols flag := by
  rw [qualifiedNeighbors, qualifiedNeighbors]
  congr 1
  funext rc
  rw [h rc.1 rc.2, h r c]

lemma updateCell_apply_self {r c k rows cols : ℕ} {acc pm : PixelMap}
    {color : ℤ → ℤ → Vec3b} {flag : Bool}
    (hcl : ∀ x y, (acc x y).cluster = (pm x y).cluster)
    (hrc : acc r c = pm r c) :
    updateCell r c k acc pm rows cols color flag r c
      = sweepValue r c k pm rows cols color flag := by
  rw [updateCell, sweepValue, qualifiedNeighbors_cluster_congr hcl]
  split_ifs with hlen
  · exact hrc
  · rw [setPixel, if_pos ⟨rfl, rfl⟩, hrc]

lemma innerFold_apply (k rows cols : ℕ) (pm : PixelMap) (color : ℤ → ℤ → Vec3b)
    (flag : Bool) (r : ℕ) :
    ∀ (m : ℕ) (acc : PixelMap),
      (∀ x y, (acc x y).cluster = (pm x y).cluster) →
      (∀ y, acc r y = pm r y) →
      ∀ x y,
        (List.range m).foldl
          (fun a c => updateCell r c k a pm rows cols color flag) acc x y
        = if x = r ∧ y < m then sweepValue r y k pm rows cols color flag
          else acc x y := by
  intro m
  induction m with
  | zero =>
      intro acc hcl hrow x y
      simp
  | succ m ih =>
      intro acc hcl hrow x y
      rw [List.range_succ, List.foldl_append, List.foldl_cons, List.foldl_nil]
      have hmid := ih acc hcl hrow
      have hmidcl : ∀ x2 y2,
          ((List.range m).foldl
            (fun a c => updateCell r c k a pm rows cols color flag) acc x2 y2).cluster
          = (pm x2 y2).cluster := by
        intro x2 y2
        rw [hmid x2 y2]
        split_ifs with h
        · rw [sweepValue_cluster, h.1]
        · exact hcl x2 y2
      have hmidrc : (List.range m).foldl
          (fun a c => updateCell r c k a pm rows cols color flag) acc r m = pm r m := by
        rw [hmid r m, if_neg (by intro hcon; exact absurd hcon.2 (lt_irrefl m))]
        exact hrow m
      by_cases hxy : x = r ∧ y = m
      · obtain ⟨hx, hy⟩ := hxy
        subst hx
        subst hy
        rw [updateCell_apply_self hmidcl hmidrc, if_pos ⟨rfl, Nat.lt_succ_self y⟩]
      · rw [updateCell_apply_ne hxy, hmid x y]
        by_cases h1 : x = r ∧ y < m
        · rw [if_pos h1, if_pos ⟨h1.1, by omega⟩]
        · rw [if_neg h1, if_neg ?hneg]
          case hneg =>
            intro hcon
            rcases Nat.lt_succ_iff_lt_or_eq.mp hcon.2 with hy | hy
            · exact h1 ⟨hcon.1, hy⟩
            · exact hxy ⟨hcon.1, hy⟩

lemma iterate_apply_aux (k rows cols : ℕ) (pm : PixelMap) (color : ℤ → ℤ → Vec3b)
    (flag : Bool) :
    ∀ (n : ℕ) (x y : ℕ),
      (List.range n).foldl
        (fun acc r => (List.range cols).foldl
          (fun acc2 c => updateCell r c k acc2 pm rows cols color flag) acc) pm x y
      = if x < n ∧ y < cols then sweepValue x y k pm rows cols color flag
        else pm x y := by
  intro n
  induction n with
  | zero =>
      intro x y
      simp
  | succ n ih =>
      intro x y
      rw [List.range_succ, List.foldl_append, List.foldl_cons, List.foldl_nil]
      have houtcl : ∀ x2 y2,
          ((List.range n).foldl
            (fun acc r => (List.range cols).foldl
              (fun acc2 c => updateCell r c k acc2 pm rows cols color flag) acc) pm x2 y2).cluster
          = (pm x2 y2).cluster := by
        intro x2 y2
        rw [ih x2 y2]
        split_ifs with h
        · rw [sweepValue_cluster]
        · rfl
      have houtrow : ∀ y2,
          (List.range n).foldl
            (fun acc r => (List.range cols).foldl
              (fun acc2 c => updateCell r c k acc2 pm rows cols color flag) acc) pm n y2
          = pm n y2 := by
        intro y2
        rw [ih n y2, if_neg (by intro hcon; exact absurd hcon.1 (lt_irrefl n))]
      rw [innerFold_apply k rows cols pm color flag n cols _ houtcl houtrow x y]
      by_cases hx : x = n
      · subst hx
        by_cases hy : y < cols
        · rw [if_pos ⟨rfl, hy⟩, if_pos ⟨Nat.lt_succ_self x, hy⟩]
        · rw [if_neg (fun hcon => hy hcon.2), ih x y,
            if_neg (fun hcon => absurd hcon.1 (lt_irrefl x)),
            if_neg (fun hcon => hy hcon.2)]
      · rw [if_neg (fun hcon => hx hcon.1), ih x y]
        by_cases h2 : x < n ∧ y < cols
        · rw [if_pos h2, if_pos ⟨by omega, h2.2⟩]
        · rw [if_neg h2, if_neg (by intro hcon; exact h2 ⟨by omega, hcon.2⟩)]

lemma iterate_apply {k rows cols : ℕ} {pm : PixelMap} {color : ℤ → ℤ → Vec3b}
    {flag : Bool} {r c : ℕ} (hr : r < rows) (hc : c < cols) :
    iterate k rows cols pm color flag r c
      = sweepValue r c k pm rows cols color flag := by
  rw [iterate, iterate_apply_aux k rows cols pm color flag rows r c, if_pos ⟨hr, hc⟩]

lemma iterate_apply_out {k rows cols : ℕ} {pm : PixelMap} {color : ℤ → ℤ → Vec3b}
    {flag : Bool} {r c : ℕ} (h : rows ≤ r ∨ cols ≤ c) :
    iterate k rows cols pm color flag r c = pm r c := by
  rw [iterate, iterate_apply_aux k rows cols pm color flag rows r c,
    if_neg (by intro hcon; omega)]

lemma iterate_cluster {k rows cols : ℕ} {pm : PixelMap} {color : ℤ → ℤ → Vec3b}
    {flag : Bool} (x y : ℕ) :
    (iterate k rows cols pm color flag x y).cluster = (pm x y).cluster := by
  rw [iterate, iterate_apply_aux k rows cols pm color flag rows x y]
  split_ifs with h
  · rw [sweepValue_cluster]
  · rfl

lemma iterate_position {k rows cols : ℕ} {pm : PixelMap} {color : ℤ → ℤ → Vec3b}
    {flag : Bool} (x y : ℕ) :
    (iterate k rows cols pm color flag x y).position = (pm x y).position := by
  rw [iterate, iterate_apply_aux k rows cols pm color flag rows x y]
  split_ifs with h
  · rw [sweepValue_position]
  · rfl

lemma mem_windowCoords {r c k rows cols rr cc : ℕ} :
    (rr, cc) ∈ windowCoords r c k rows cols ↔
      r - k / 2 ≤ rr ∧ rr ≤ min (rows - 1) (r + k / 2)
        ∧ c - k / 2 ≤ cc ∧ cc ≤ min (cols - 1) (c + k / 2) := by
  rw [windowCoords]
  simp only [List.mem_flatMap, List.mem_map, List.mem_range, Prod.mk.injEq]
  constructor
  · rintro ⟨a, ⟨t, ht, hta⟩, b, ⟨s, hs, hsb⟩, hra, hcb⟩
    omega
  · rintro ⟨h1, h2, h3, h4⟩
    exact ⟨rr, ⟨rr - (r - k / 2), by omega, by omega⟩,
      ⟨cc, ⟨cc - (c - k / 2), by omega, by omega⟩, rfl, rfl⟩⟩

lemma self_mem_qualifiedNeighbors {r c k rows cols : ℕ} {pm old : PixelMap}
    {flag : Bool} (hr : r < rows) (hc : c < cols) :
    old r c ∈ qualifiedNeighbors r c k pm old rows cols flag := by
  rw [qualifiedNeighbors, List.mem_filterMap]
  refine ⟨(r, c), mem_windowCoords.mpr (by omega), ?_⟩
  rw [if_pos ⟨rfl, Or.inr (le_refl _)⟩]

lemma mem_qualifiedNeighbors {r c k rows cols : ℕ} {pm old : PixelMap}
    {flag : Bool} {p : Pixel} :
    p ∈ qualifiedNeighbors r c k pm old rows cols flag ↔
      ∃ rr cc, (rr, cc) ∈ windowCoords r c k rows cols
        ∧ (pm rr cc).cluster = (pm r c).cluster
        ∧ (flag = true ∨ (old rr cc).magnitude ≥ (old r c).magnitude)
        ∧ p = old rr cc := by
  rw [qualifiedNeighbors, List.mem_filterMap]
  constructor
  · rintro ⟨rc, hmem, hp⟩
    by_cases hcond : (pm rc.1 rc.2).cluster = (pm r c).cluster ∧
        (flag = true ∨ (old rc.1 rc.2).magnitude ≥ (old r c).magnitude)
    · rw [if_pos hcond] at hp
      exact ⟨rc.1, rc.2, by rwa [Prod.mk.eta], hcond.1, hcond.2,
        (Option.some.inj hp).symm⟩
    · rw [if_neg hcond] at hp
      cases hp
  · rintro ⟨rr, cc, hmem, h1, h2, h3⟩
    exact ⟨(rr, cc), hmem, by rw [if_pos ⟨h1, h2⟩, h3]⟩

lemma GaussianFilter_pos {sigma miu x : ℝ} (hs : 0 < sigma) :
    0 < GaussianFilter sigma miu x := by
  rw [GaussianFilter]
  apply div_pos (Real.exp_pos _)
  apply mul_pos hs
  apply Real.sqrt_pos.mpr
  positivity

lemma bilateral_filter_mem {center : Vec2i} {l : List Pixel}
    {color : ℤ → ℤ → Vec3b} {q : Pixel} (hq : q ∈ bilateral_filter center l color) :
    ∃ p ∈ l, q.angle = p.angle ∧ q.magnitude = p.magnitude ∧ 0 < q.weight := by
  rw [bilateral_filter, List.mem_map] at hq
  obtain ⟨p, hp, heq⟩ := hq
  refine ⟨p, hp, ?_, ?_, ?_⟩
  · rw [← heq]
  · rw [← heq]
  · rw [← heq]
    exact mul_pos (GaussianFilter_pos two_pos) (GaussianFilter_pos (by norm_num))

lemma bilateral_filter_ne_nil {center : Vec2i} {l : List Pixel}
    {color : ℤ → ℤ → Vec3b} (h : l ≠ []) :
    bilateral_filter center l color ≠ [] := by
  rw [bilateral_filter]
  simpa using h

lemma sumWeightedMagnitudes_eq_sumMagWeights (l : List Pixel) :
    sumWeightedMagnitudes l = sumMagWeights l := by
  induction l with
  | nil => rfl
  | cons p rest ih => rw [sumWeightedMagnitudes, sumMagWeights, ih]

lemma sumWeightedMagnitudes_ge {l : List Pixel} (m0 : ℝ)
    (h : ∀ p ∈ l, 0 < p.weight ∧ m0 ≤ p.magnitude) :
    m0 * sumWeights l ≤ sumWeightedMagnitudes l := by
  induction l with
  | nil => simp [sumWeights, sumWeightedMagnitudes]
  | cons p rest ih =>
      rw [sumWeights, sumWeightedMagnitudes, mul_add]
      have hp := h p (by simp)
      have hterm : m0 * p.weight ≤ p.weight * p.magnitude := by
        rw [mul_comm]
        exact mul_le_mul_of_nonneg_left hp.2 (le_of_lt hp.1)
      have htail := ih fun q hq => h q (by simp [hq])
      linarith

lemma interpolate_magnitude_ge {l : List Pixel} (hne : l ≠ []) (m0 : ℝ)
    (h : ∀ p ∈ l, 0 < p.weight ∧ m0 ≤ p.magnitude) :
    m0 ≤ interpolate_magnitude l := by
  have hW : 0 < sumWeights l := sumWeights_pos hne fun p hp => (h p hp).1
  rw [interpolate_magnitude, le_div_iff₀ hW]
  exact sumWeightedMagnitudes_ge m0 h

lemma interpolate_magnitude_pos {l : List Pixel} (hne : l ≠ [])
    (h : ∀ p ∈ l, 0 < p.weight ∧ 0 < p.magnitude) :
    0 < interpolate_magnitude l := by
  rw [interpolate_magnitude]
  apply div_pos
  · rw [sumWeightedMagnitudes_eq_sumMagWeights]
    exact sumMagWeights_pos hne fun p hp => mul_pos (h p hp).1 (h p hp).2
  · exact sumWeights_pos hne fun p hp => (h p hp).1

/-- C10: during a strength-gated sweep (ignore_mag false) no cell's magnitude
    decreases: singletons are no-ops, and otherwise the new magnitude is a
    positively weighted mean of snapshot magnitudes that all pass the gate,
    hence are at least the cell's own snapshot magnitude. -/
theorem c10_gated_magnitude_monotone (k rows cols : ℕ) (pm : PixelMap)
    (color : ℤ → ℤ → Vec3b) (r c : ℕ) :
    (pm r c).magnitude ≤ (iterate k rows cols pm color false r c).magnitude := by
  by_cases hin : r < rows ∧ c < cols
  · rw [iterate_apply hin.1 hin.2, sweepValue]
    by_cases hlen : (qualifiedNeighbors r c k pm pm rows cols false).length = 1
    · rw [if_pos hlen]
    · rw [if_neg hlen]
      have hqne : qualifiedNeighbors r c k pm pm rows cols false ≠ [] :=
        List.ne_nil_of_mem (self_mem_qualifiedNeighbors hin.1 hin.2)
      apply interpolate_magnitude_ge (bilateral_filter_ne_nil hqne)
      intro q hq
      obtain ⟨p, hp, hang, hmag, hwpos⟩ := bilateral_filter_mem hq
      refine ⟨hwpos, ?_⟩
      rw [hmag]
      obtain ⟨rr, cc, hmem, hcl, hgate, hpe⟩ := mem_qualifiedNeighbors.mp hp
      rcases hgate with hg | hg
      · exact absurd hg (by simp)
      · rw [hpe]
        exact hg
  · rw [iterate_apply_out (by omega)]

/-- C5: if the neighbor selector returns exactly one candidate for a cell, the
    sweep leaves that cell's whole record, in particular angle and magnitude,
    unchanged. -/
theorem c5_single_candidate_noop {k rows cols : ℕ} {pm : PixelMap}
    {color : ℤ → ℤ → Vec3b} {flag : Bool} {r c : ℕ} (hr : r < rows) (hc : c < cols)
    (h1 : (qualifiedNeighbors r c k pm pm rows cols flag).length = 1) :
    iterate k rows cols pm color flag r c = pm r c := by
  rw [iterate_apply hr hc, sweepValue, if_pos h1]

/-- All-black photometric image. -/
def blackImage : ℤ → ℤ → Vec3b := fun _ _ => (0, 0, 0)

/-- Two-cell grid whose cells carry distinct cluster ids. -/
def noopGrid : PixelMap := fun x y =>
  if x = 0 ∧ y = 0 then ⟨(0, 0), 0, 0, 0, 0, 1, 1⟩
  else ⟨(0, 1), 1, 0, 0, 0, 1, 1⟩

lemma noopGrid_window : windowCoords 0 0 7 1 2 = [(0, 0), (0, 1)] := by decide

lemma noopGrid_single :
    (qualifiedNeighbors 0 0 7 noopGrid noopGrid 1 2 true).length = 1 := by
  rw [qualifiedNeighbors, noopGrid_window]
  rw [List.filterMap_cons, List.filterMap_cons, List.filterMap_nil]
  have hcl : (noopGrid 0 1).cluster ≠ (noopGrid 0 0).cluster := by
    rw [noopGrid]
    norm_num [noopGrid]
  rw [if_pos ⟨rfl, Or.inl rfl⟩, if_neg (fun hcon => hcl hcon.1)]
  rfl

/-- Witness for C5 on a two-cell grid split into two clusters, where each cell
    is its own single candidate. -/
theorem c5_single_candidate_noop_witness :
    iterate 7 1 2 noopGrid blackImage true 0 0 = noopGrid 0 0 :=
  c5_single_candidate_noop (by norm_num) (by norm_num) noopGrid_single

lemma iterate_invariant {k rows cols : ℕ} {pm : PixelMap} {color : ℤ → ℤ → Vec3b}
    {flag : Bool}
    (h : ∀ x y, (-(Real.pi / 2) ≤ (pm x y).angle ∧ (pm x y).angle < Real.pi / 2)
      ∧ 0 < (pm x y).magnitude) :
    ∀ x y, (-(Real.pi / 2) ≤ (iterate k rows cols pm color flag x y).angle
        ∧ (iterate k rows cols pm color flag x y).angle < Real.pi / 2)
      ∧ 0 < (iterate k rows cols pm color flag x y).magnitude := by
  intro x y
  by_cases hin : x < rows ∧ y < cols
  · rw [iterate_apply hin.1 hin.2, sweepValue]
    by_cases hlen : (qualifiedNeighbors x y k pm pm rows cols flag).length = 1
    · rw [if_pos hlen]
      exact h x y
    · rw [if_neg hlen]
      have hqne : qualifiedNeighbors x y k pm pm rows cols flag ≠ [] :=
        List.ne_nil_of_mem (self_mem_qualifiedNeighbors hin.1 hin.2)
      have hbne := @bilateral_filter_ne_nil ((x : ℤ), (y : ℤ))
        (qualifiedNeighbors x y k pm pm rows cols flag) color hqne
      have hcond : ∀ q ∈ bilateral_filter ((x : ℤ), (y : ℤ))
          (qualifiedNeighbors x y k pm pm rows cols flag) color,
          ((-(Real.pi / 2) ≤ q.angle ∧ q.angle < Real.pi / 2)
            ∧ 0 < q.weight * q.magnitude) := by
        intro q hq
        obtain ⟨p, hp, hang, hmag, hwpos⟩ := bilateral_filter_mem hq
        obtain ⟨rr, cc, hmem, hcl, hgate, hpe⟩ := mem_qualifiedNeighbors.mp hp
        refine ⟨?_, ?_⟩
        · rw [hang, hpe]
          exact (h rr cc).1
        · apply mul_pos hwpos
          rw [hmag, hpe]
          exact (h rr cc).2
      have hcond2 : ∀ q ∈ bilateral_filter ((x : ℤ), (y : ℤ))
          (qualifiedNeighbors x y k pm pm rows cols flag) color,
          0 < q.weight ∧ 0 < q.magnitude := by
        intro q hq
        obtain ⟨p, hp, hang, hmag, hwpos⟩ := bilateral_filter_mem hq
        obtain ⟨rr, cc, hmem, hcl, hgate, hpe⟩ := mem_qualifiedNeighbors.mp hp
        refine ⟨hwpos, ?_⟩
        rw [hmag, hpe]
        exact (h rr cc).2
      exact ⟨interpolate_angle_mem_Ico hbne hcond,
        interpolate_magnitude_pos hbne hcond2⟩
  · rw [iterate_apply_out (by omega)]
    exact h x y

lemma runFlags_invariant {k rows cols : ℕ} {color : ℤ → ℤ → Vec3b}
    (flags : List Bool) (pm : PixelMap)
    (h : ∀ x y, (-(Real.pi / 2) ≤ (pm x y).angle ∧ (pm x y).angle < Real.pi / 2)
      ∧ 0 < (pm x y).magnitude) :
    ∀ x y, (-(Real.pi / 2) ≤ (runFlags k rows cols color flags pm x y).angle
        ∧ (runFlags k rows cols color flags pm x y).angle < Real.pi / 2)
      ∧ 0 < (runFlags k rows cols color flags pm x y).magnitude := by
  induction flags generalizing pm with
  | nil => exact h
  | cons f fs ih =>
      intro x y
      rw [runFlags]
      exact ih (iterate k rows cols pm color f) (iterate_invariant h) x y

/-- C2 (amended): the angle domain that actually holds is the half-open
    interval from minus pi over 2 (inclusive) to pi over 2 (exclusive).  The
    construction angle atan(dx / -dy) lies strictly inside it, and every sweep
    of any phase preserves it, for any grid whose cells all carry angles in
    that interval and strictly positive magnitudes (positivity rules out the
    all-zero-mass neighborhoods whose angle mean would be NaN, see C3).  The
    claimed interval, open at minus pi over 2 and closed at pi over 2, is
    refuted by the counterexample. -/
theorem c2_angle_domain (dx dy : ℝ) (k rows cols : ℕ) (pm : PixelMap)
    (color : ℤ → ℤ → Vec3b) (flags : List Bool)
    (h : ∀ x y, (-(Real.pi / 2) ≤ (pm x y).angle ∧ (pm x y).angle < Real.pi / 2)
      ∧ 0 < (pm x y).magnitude) :
    (-(Real.pi / 2) < initAngle dx dy ∧ initAngle dx dy < Real.pi / 2)
      ∧ ∀ x y, -(Real.pi / 2) ≤ (runFlags k rows cols color flags pm x y).angle
          ∧ (runFlags k rows cols color flags pm x y).angle < Real.pi / 2 := by
  refine ⟨⟨Real.neg_pi_div_two_lt_arctan _, Real.arctan_lt_pi_div_two _⟩, ?_⟩
  intro x y
  exact (runFlags_invariant flags pm h x y).1

lemma interpolate_angle_antipodal (p q : Pixel)
    (hangp : p.angle = 89 * Real.pi / 180)
    (hangq : q.angle = -(89 * Real.pi / 180))
    (hmw : q.weight * q.magnitude = p.weight * p.magnitude)
    (hpos : 0 < p.weight * p.magnitude) :
    interpolate_angle [p, q] = -(Real.pi / 2) := by
  have hπ := Real.pi_pos
  have hAB : ¬ (p.angle < q.angle) := by
    rw [hangp, hangq]
    push_neg
    nlinarith
  have hsort : sortByAngle [p, q] = [q, p] := by
    simp only [sortByAngle, insertByAngle, if_neg hAB]
  have hcond : q.angle + Real.pi - p.angle < p.angle - q.angle := by
    rw [hangp, hangq]
    nlinarith
  have hidx : splitIndex ([q, p].map Pixel.angle) = 1 := by
    rw [splitIndex, splitFold]
    simp only [List.map_cons, List.map_nil, List.length_cons, List.length_nil]
    norm_num
    rw [(by decide : List.range 1 = [0]), List.foldl_cons, List.foldl_nil]
    simp only [splitStep, List.getD_cons_zero, List.getD_cons_succ]
    rw [if_pos hcond]
  have hnum : angleNumerFrom 1 0 [q, p] = Real.pi * (p.weight * p.magnitude) := by
    rw [angleNumerFrom, angleNumerFrom, angleNumerFrom]
    rw [if_pos (by norm_num : (0 : ℕ) < 1), if_neg (by norm_num : ¬ (1 : ℕ) < 1)]
    rw [hmw, hangp, hangq]
    ring
  have hden : sumMagWeights [q, p] = 2 * (p.weight * p.magnitude) := by
    rw [sumMagWeights, sumMagWeights, sumMagWeights, hmw]
    ring
  have havg : Real.pi * (p.weight * p.magnitude) / (2 * (p.weight * p.magnitude))
      = Real.pi / 2 := by
    rw [mul_comm Real.pi (p.weight * p.magnitude),
      mul_comm (2 : ℝ) (p.weight * p.magnitude),
      mul_div_mul_left _ _ (ne_of_gt hpos)]
  rw [interpolate_angle, hsort, hidx, hnum, hden, havg, if_pos (le_refl (Real.pi / 2))]
  ring

/-- C6: the driver applies sweep index i with the gate flag decided purely by
    the iteration count: the flag equals decide (20 ≤ i), which is false (the
    strength-gated policy) exactly for i below 20 and true (the unconstrained
    policy) for i at least 20; the grid pm is universally quantified on both
    sides, so the field values never enter the decision. -/
theorem c6_phase_switch (rows cols : ℕ) (color : ℤ → ℤ → Vec3b) (pm : PixelMap)
    (i : ℕ) :
    mainLoop rows cols color pm (i + 1)
      = iterate 7 rows cols (mainLoop rows cols color pm i) color (decide (20 ≤ i))
      ∧ (decide (20 ≤ i) = false ↔ i < 20) := by
  constructor
  · rw [mainLoop]
    by_cases h : i < 20
    · rw [if_pos h, decide_eq_false (by omega : ¬ 20 ≤ i)]
    · rw [if_neg h, decide_eq_true (by omega : 20 ≤ i)]
  · constructor
    · intro hd
      by_contra hcon
      rw [decide_eq_true (by omega : 20 ≤ i)] at hd
      cases hd
    · intro h
      exact decide_eq_false (by omega)

lemma filterMap_congr_local {α β : Type} {l : List α} {f g : α → Option β}
    (h : ∀ a ∈ l, f a = g a) : l.filterMap f = l.filterMap g := by
  induction l with
  | nil => rfl
  | cons a rest ih =>
      rw [List.filterMap_cons, List.filterMap_cons, h a (by simp),
        ih fun b hb => h b (by simp [hb])]

lemma map_congr_local {α β : Type} {l : List α} {f g : α → β}
    (h : ∀ a ∈ l, f a = g a) : l.map f = l.map g := by
  induction l with
  | nil => rfl
  | cons a rest ih =>
      rw [List.map_cons, List.map_cons, h a (by simp),
        ih fun b hb => h b (by simp [hb])]

lemma qualifiedNeighbors_isolated {k rows cols : ℕ} {κ : ℤ} {pm1 pm2 : PixelMap}
    {flag : Bool} {r c : ℕ}
    (hclus : ∀ x y, (pm2 x y).cluster = (pm1 x y).cluster)
    (heq : ∀ x y, (pm1 x y).cluster = κ → pm2 x y = pm1 x y)
    (hκ : (pm1 r c).cluster = κ) :
    qualifiedNeighbors r c k pm2 pm2 rows cols flag
      = qualifiedNeighbors r c k pm1 pm1 rows cols flag := by
  rw [qualifiedNeighbors, qualifiedNeighbors]
  apply filterMap_congr_local
  intro rc hmem
  by_cases hcl : (pm1 rc.1 rc.2).cluster = (pm1 r c).cluster
  · have hrc2 : pm2 rc.1 rc.2 = pm1 rc.1 rc.2 := heq _ _ (hcl.trans hκ)
    have hc2 : pm2 r c = pm1 r c := heq _ _ hκ
    rw [hrc2, hc2]
  · have hcl2 : ¬ (pm2 rc.1 rc.2).cluster = (pm2 r c).cluster := by
      rw [hclus, hclus]
      exact hcl
    rw [if_neg (fun hcon => hcl2 hcon.1), if_neg (fun hcon => hcl hcon.1)]

lemma bilateral_filter_color_congr {center : Vec2i} {l : List Pixel}
    {color1 color2 : ℤ → ℤ → Vec3b}
    (hc : color2 center.1 center.2 = color1 center.1 center.2)
    (hn : ∀ p ∈ l, color2 p.position.1 p.position.2
      = color1 p.position.1 p.position.2) :
    bilateral_filter center l color2 = bilateral_filter center l color1 := by
  rw [bilateral_filter, bilateral_filter]
  apply map_congr_local
  intro p hp
  rw [hc, hn p hp]

lemma sweepValue_isolated {k rows cols : ℕ} {κ : ℤ} {pm1 pm2 : PixelMap}
    {color1 color2 : ℤ → ℤ → Vec3b} {flag : Bool} {r c : ℕ}
    (hclus : ∀ x y, (pm2 x y).cluster = (pm1 x y).cluster)
    (hpos : ∀ x y, (pm1 x y).position = ((x : ℤ), (y : ℤ)))
    (heq : ∀ x y, (pm1 x y).cluster = κ → pm2 x y = pm1 x y)
    (hcol : ∀ x y, (pm1 x y).cluster = κ →
      color2 (x : ℤ) (y : ℤ) = color1 (x : ℤ) (y : ℤ))
    (hκ : (pm1 r c).cluster = κ) :
    sweepValue r c k pm2 rows cols color2 flag
      = sweepValue r c k pm1 rows cols color1 flag := by
  rw [sweepValue, sweepValue, qualifiedNeighbors_isolated hclus heq hκ]
  have hbil : bilateral_filter ((r : ℤ), (c : ℤ))
      (qualifiedNeighbors r c k pm1 pm1 rows cols flag) color2
      = bilateral_filter ((r : ℤ), (c : ℤ))
        (qualifiedNeighbors r c k pm1 pm1 rows cols flag) color1 := by
    apply bilateral_filter_color_congr
    · exact hcol r c hκ
    · intro p hp
      obtain ⟨rr, cc, hmem, hcl, hgate, hpe⟩ := mem_qualifiedNeighbors.mp hp
      rw [hpe, hpos rr cc]
      exact hcol rr cc (hcl.trans hκ)
  rw [hbil, heq r c hκ]

lemma cluster_isolation_aux {k rows cols : ℕ} {κ : ℤ} :
    ∀ (flags : List Bool) (pm1 pm2 : PixelMap) (color1 color2 : ℤ → ℤ → Vec3b),
      (∀ x y, (pm2 x y).cluster = (pm1 x y).cluster) →
      (∀ x y, (pm1 x y).position = ((x : ℤ), (y : ℤ))) →
      (∀ x y, (pm1 x y).cluster = κ → pm2 x y = pm1 x y) →
      (∀ x y, (pm1 x y).cluster = κ →
        color2 (x : ℤ) (y : ℤ) = color1 (x : ℤ) (y : ℤ)) →
      ∀ r c, (pm1 r c).cluster = κ →
        runFlags k rows cols color2 flags pm2 r c
          = runFlags k rows cols color1 flags pm1 r c := by
  intro flags
  induction flags with
  | nil =>
      intro pm1 pm2 c1 c2 hclus hpos heq hcol r c hκ
      exact heq r c hκ
  | cons f fs ih =>
      intro pm1 pm2 c1 c2 hclus hpos heq hcol r c hκ
      rw [runFlags, runFlags]
      apply ih (iterate k rows cols pm1 c1 f) (iterate k rows cols pm2 c2 f) c1 c2
      · intro x y
        rw [iterate_cluster, iterate_cluster, hclus]
      · intro x y
        rw [iterate_position, hpos]
      · intro x y hcl
        rw [iterate_cluster] at hcl
        by_cases hin : x < rows ∧ y < cols
        · rw [iterate_apply hin.1 hin.2, iterate_apply hin.1 hin.2]
          exact sweepValue_isolated hclus hpos heq hcol hcl
        · rw [iterate_apply_out (by omega), iterate_apply_out (by omega)]
          exact heq x y hcl
      · intro x y hcl
        rw [iterate_cluster] at hcl
        exact hcol x y hcl
      · rw [iterate_cluster]
        exact hκ

/-- C7: cluster isolation.  Two runs over grids that carry the same cluster
    map and well-formed positions, agree on every cell of cluster κ, and whose
    photometric images agree at every cluster-κ position, produce identical
    results at every cluster-κ cell, for any window size, any flag sequence,
    and any number of sweeps; cells of other clusters may differ arbitrarily in
    angle, magnitude and color. -/
theorem c7_cluster_isolation (k rows cols : ℕ) (κ : ℤ) (flags : List Bool)
    (pm1 pm2 : PixelMap) (color1 color2 : ℤ → ℤ → Vec3b)
    (hclus : ∀ x y, (pm2 x y).cluster = (pm1 x y).cluster)
    (hpos : ∀ x y, (pm1 x y).position = ((x : ℤ), (y : ℤ)))
    (heq : ∀ x y, (pm1 x y).cluster = κ → pm2 x y = pm1 x y)
    (hcol : ∀ x y, (pm1 x y).cluster = κ →
      color2 (x : ℤ) (y : ℤ) = color1 (x : ℤ) (y : ℤ))
    (r c : ℕ) (hκ : (pm1 r c).cluster = κ) :
    runFlags k rows cols color2 flags pm2 r c
      = runFlags k rows cols color1 flags pm1 r c :=
  cluster_isolation_aux flags pm1 pm2 color1 color2 hclus hpos heq hcol r c hκ

/-- Two-cluster witness grid with well-formed positions. -/
def isoGrid : PixelMap := fun x y =>
  ⟨((x : ℤ), (y : ℤ)), if x = 0 ∧ y = 0 then 0 else 1, 0, 0, 0, 1, 1⟩

/-- Variant of isoGrid that differs exactly at the cells of cluster 1: their
    angle is 1 instead of 0. -/
def isoGrid2 : PixelMap := fun x y =>
  ⟨((x : ℤ), (y : ℤ)), if x = 0 ∧ y = 0 then 0 else 1, 0, 0,
    if x = 0 ∧ y = 0 then 0 else 1, 1, 1⟩

/-- Witness for C7: one sweep over the two grids that differ only at cluster-1
    cells gives the same result at the cluster-0 cell. -/
theorem c7_cluster_isolation_witness :
    runFlags 3 1 2 blackImage [false] isoGrid2 0 0
      = runFlags 3 1 2 blackImage [false] isoGrid 0 0 :=
  c7_cluster_isolation 3 1 2 0 [false] isoGrid isoGrid2 blackImage blackImage
    (fun x y => by by_cases h : x = 0 ∧ y = 0 <;> simp [isoGrid, isoGrid2, h])
    (fun x y => rfl)
    (fun x y hcl => by
      by_cases h : x = 0 ∧ y = 0
      · simp [isoGrid, isoGrid2, h]
      · have hbad : (1 : ℤ) = 0 := by simpa [isoGrid, h] using hcl
        norm_num at hbad)
    (fun x y hcl => rfl)
    0 0 (by simp [isoGrid])

lemma sumMagWeights_insertByAngle (p : Pixel) (l : List Pixel) :
    sumMagWeights (insertByAngle p l)
      = p.weight * p.magnitude + sumMagWeights l := by
  induction l with
  | nil => rfl
  | cons q rest ih =>
      by_cases h : p.angle < q.angle
      · rw [insertByAngle, if_pos h, sumMagWeights]
      · rw [insertByAngle, if_neg h, sumMagWeights, ih, sumMagWeights]
        ring

lemma sumMagWeights_sortByAngle (l : List Pixel) :
    sumMagWeights (sortByAngle l) = sumMagWeights l := by
  induction l with
  | nil => rfl
  | cons p rest ih =>
      rw [sortByAngle, sumMagWeights_insertByAngle, ih, sumMagWeights]

lemma sumMagWeights_pos_of_exists {l : List Pixel}
    (hall : ∀ p ∈ l, 0 ≤ p.weight * p.magnitude)
    (hex : ∃ p ∈ l, 0 < p.weight * p.magnitude) : 0 < sumMagWeights l := by
  induction l with
  | nil =>
      obtain ⟨p, hp, _⟩ := hex
      cases hp
  | cons p rest ih =>
      rw [sumMagWeights]
      obtain ⟨q, hq, hqpos⟩ := hex
      rcases List.mem_cons.mp hq with hq2 | hq2
      · subst hq2
        have := sumMagWeights_nonneg fun b hb => hall b (List.mem_cons_of_mem _ hb)
        linarith
      · have hp := hall p (by simp)
        have := ih (fun b hb => hall b (List.mem_cons_of_mem _ hb)) ⟨q, hq2, hqpos⟩
        linarith

/-- C3 (amended): with bilateral weighting every candidate weight is strictly
    positive, so the magnitude mean is always well-defined for a nonempty
    candidate list; the circular angle mean is well-defined whenever some
    candidate carries strictly positive magnitude.  The unqualified claim, for
    magnitudes only known to be nonnegative, is refuted by the counterexample
    in which every candidate magnitude is zero and the angle mass vanishes. -/
theorem c3_aggregation_welldefined (center : Vec2i) (l : List Pixel)
    (color : ℤ → ℤ → Vec3b) (hne : l ≠ [])
    (hmag : ∀ p ∈ l, 0 ≤ p.magnitude) (hex : ∃ p ∈ l, 0 < p.magnitude) :
    0 < sumWeights (bilateral_filter center l color)
      ∧ 0 < sumMagWeights (sortByAngle (bilateral_filter center l color)) := by
  constructor
  · apply sumWeights_pos (bilateral_filter_ne_nil hne)
    intro q hq
    obtain ⟨p, hp, _, _, hw⟩ := bilateral_filter_mem hq
    exact hw
  · rw [sumMagWeights_sortByAngle]
    apply sumMagWeights_pos_of_exists
    · intro q hq
      obtain ⟨p, hp, _, hmq, hw⟩ := bilateral_filter_mem hq
      rw [hmq]
      exact mul_nonneg (le_of_lt hw) (hmag p hp)
    · obtain ⟨p, hp, hppos⟩ := hex
      refine ⟨{ p with weight := GaussianFilter 2 0 (vec2Norm (vec2Sub center p.position)) *
          GaussianFilter 10 0 (vec3Norm (vec3Sub (color center.1 center.2)
            (color p.position.1 p.position.2))) }, ?_, ?_⟩
      · rw [bilateral_filter, List.mem_map]
        exact ⟨p, hp, rfl⟩
      · exact mul_pos
          (mul_pos (GaussianFilter_pos two_pos) (GaussianFilter_pos (by norm_num)))
          hppos

/-- Witness for C3 on the singleton unit pixel list. -/
theorem c3_aggregation_welldefined_witness :
    0 < sumWeights (bilateral_filter (0, 0) [pixUnit] blackImage)
      ∧ 0 < sumMagWeights (sortByAngle (bilateral_filter (0, 0) [pixUnit] blackImage)) :=
  c3_aggregation_welldefined (0, 0) [pixUnit] blackImage (by simp)
    (fun p hp => by
      rcases List.mem_singleton.mp hp with h
      subst h
      show (0 : ℝ) ≤ 1
      norm_num)
    ⟨pixUnit, by simp, by show (0 : ℝ) < 1; norm_num⟩

/-- All-zero-magnitude two-cell grid on one cluster, with the construction
    invariant magnitude ≥ 0 satisfied everywhere. -/
def zeroMagGrid : PixelMap := fun x y =>
  ⟨((x : ℤ), (y : ℤ)), 0, 0, 0, 0, 0, 1⟩

lemma zeroMagGrid_qn :
    qualifiedNeighbors 0 0 7 zeroMagGrid zeroMagGrid 1 2 true
      = [zeroMagGrid 0 0, zeroMagGrid 0 1] := by
  rw [qualifiedNeighbors, noopGrid_window, List.filterMap_cons, List.filterMap_cons,
    List.filterMap_nil]
  rw [if_pos ⟨rfl, Or.inl rfl⟩, if_pos ⟨rfl, Or.inl rfl⟩]

/-- C3 counterexample: a reachable neighborhood with two candidates (same
    cluster, construction invariant magnitude ≥ 0 holding) in which every
    candidate magnitude is zero: the circular mean mass over the bilateral
    weighted sorted candidates is exactly zero, so the angle average divides
    by zero (NaN in the C code) even though two candidates exist. -/
theorem c3_aggregation_welldefined_cex :
    (qualifiedNeighbors 0 0 7 zeroMagGrid zeroMagGrid 1 2 true).length = 2
      ∧ 0 ≤ (zeroMagGrid 0 0).magnitude ∧ 0 ≤ (zeroMagGrid 0 1).magnitude
      ∧ sumMagWeights (sortByAngle (bilateral_filter (0, 0)
          (qualifiedNeighbors 0 0 7 zeroMagGrid zeroMagGrid 1 2 true)
          blackImage)) = 0 := by
  refine ⟨by rw [zeroMagGrid_qn]; rfl, by norm_num [zeroMagGrid],
    by norm_num [zeroMagGrid], ?_⟩
  rw [zeroMagGrid_qn, sumMagWeights_sortByAngle, bilateral_filter]
  simp only [List.map_cons, List.map_nil, sumMagWeights]
  norm_num [zeroMagGrid]

/-- Witness for C2 on a constant one-cell grid with angle 0 and magnitude 1. -/
theorem c2_angle_domain_witness :
    -(Real.pi / 2) ≤ (runFlags 7 1 1 blackImage [true] (fun _ _ => pixUnit) 0 0).angle
      ∧ (runFlags 7 1 1 blackImage [true] (fun _ _ => pixUnit) 0 0).angle
        < Real.pi / 2 :=
  (c2_angle_domain 0 1 7 1 1 (fun _ _ => pixUnit) blackImage [true]
    (fun x y => ⟨⟨by show -(Real.pi / 2) ≤ (0 : ℝ); linarith [Real.pi_pos],
      by show (0 : ℝ) < Real.pi / 2; linarith [Real.pi_pos]⟩,
      by show (0 : ℝ) < 1; norm_num⟩)).2 0 0

/-- Seam grid: two same-cluster cells at plus and minus 89 degrees whose
    magnitudes are balanced against the bilateral weights so that the weighted
    circular mean of the first cell lands exactly on pi over 2 and is then
    renormalized to minus pi over 2. -/
def seamGrid : PixelMap := fun x y =>
  if x = 0 ∧ y = 0 then ⟨(0, 0), 0, 0, 0, 89 * Real.pi / 180, 1, 1⟩
  else ⟨(0, 1), 0, 0, 0, -(89 * Real.pi / 180), Real.exp (1 / 8), 1⟩

lemma seamGrid_qn :
    qualifiedNeighbors 0 0 7 seamGrid seamGrid 1 2 true
      = [seamGrid 0 0, seamGrid 0 1] := by
  rw [qualifiedNeighbors, noopGrid_window, List.filterMap_cons, List.filterMap_cons,
    List.filterMap_nil]
  have hcl : (seamGrid 0 1).cluster = (seamGrid 0 0).cluster := by
    simp [seamGrid]
  rw [if_pos ⟨rfl, Or.inl rfl⟩, if_pos ⟨hcl, Or.inl rfl⟩]

lemma gaussian_exp_balance :
    GaussianFilter 2 0 1 * Real.exp (1 / 8) = GaussianFilter 2 0 0 := by
  rw [GaussianFilter, GaussianFilter, div_mul_eq_mul_div, ← Real.exp_add]
  norm_num

lemma seamGrid_weighted :
    bilateral_filter (((0 : ℕ) : ℤ), ((0 : ℕ) : ℤ)) [seamGrid 0 0, seamGrid 0 1]
      blackImage
      = [{ seamGrid 0 0 with
            weight := GaussianFilter 2 0 0 * GaussianFilter 10 0 0 },
         { seamGrid 0 1 with
            weight := GaussianFilter 2 0 1 * GaussianFilter 10 0 0 }] := by
  norm_num [bilateral_filter, seamGrid, blackImage, vec2Sub, vec2Norm, vec3Sub,
    vec3Norm]

lemma seamGrid_sweep_angle :
    (iterate 7 1 2 seamGrid blackImage true 0 0).angle = -(Real.pi / 2) := by
  rw [iterate_apply (by norm_num) (by norm_num), sweepValue, seamGrid_qn]
  rw [if_neg (by norm_num)]
  show interpolate_angle (bilateral_filter (((0 : ℕ) : ℤ), ((0 : ℕ) : ℤ))
    [seamGrid 0 0, seamGrid 0 1] blackImage) = -(Real.pi / 2)
  rw [seamGrid_weighted]
  apply interpolate_angle_antipodal
  · simp [seamGrid]
  · simp [seamGrid]
  · show GaussianFilter 2 0 1 * GaussianFilter 10 0 0 * (seamGrid 0 1).magnitude
      = GaussianFilter 2 0 0 * GaussianFilter 10 0 0 * (seamGrid 0 0).magnitude
    have hm1 : (seamGrid 0 1).magnitude = Real.exp (1 / 8) := by simp [seamGrid]
    have hm0 : (seamGrid 0 0).magnitude = 1 := by simp [seamGrid]
    rw [hm1, hm0, mul_one, mul_right_comm, gaussian_exp_balance]
  · show 0 < GaussianFilter 2 0 0 * GaussianFilter 10 0 0 * (seamGrid 0 0).magnitude
    have hm0 : (seamGrid 0 0).magnitude = 1 := by simp [seamGrid]
    rw [hm0, mul_one]
    exact mul_pos (GaussianFilter_pos two_pos) (GaussianFilter_pos (by norm_num))

/-- C2 counterexample: the seam grid has both initial angles inside the
    claimed interval and positive magnitudes, yet after one unconstrained
    sweep the first cell's angle is exactly minus pi over 2, which lies
    outside the claimed half-open interval that is open at minus pi over 2
    and closed at pi over 2. -/
theorem c2_angle_domain_cex :
    (-(Real.pi / 2) < (seamGrid 0 0).angle ∧ (seamGrid 0 0).angle ≤ Real.pi / 2)
      ∧ (-(Real.pi / 2) < (seamGrid 0 1).angle ∧ (seamGrid 0 1).angle ≤ Real.pi / 2)
      ∧ (iterate 7 1 2 seamGrid blackImage true 0 0).angle = -(Real.pi / 2)
      ∧ ¬ (-(Real.pi / 2) < (iterate 7 1 2 seamGrid blackImage true 0 0).angle
            ∧ (iterate 7 1 2 seamGrid blackImage true 0 0).angle ≤ Real.pi / 2) := by
  have hπ := Real.pi_pos
  have ha0 : (seamGrid 0 0).angle = 89 * Real.pi / 180 := by simp [seamGrid]
  have ha1 : (seamGrid 0 1).angle = -(89 * Real.pi / 180) := by simp [seamGrid]
  refine ⟨⟨by rw [ha0]; nlinarith, by rw [ha0]; nlinarith⟩,
    ⟨by rw [ha1]; nlinarith, by rw [ha1]; nlinarith⟩,
    seamGrid_sweep_angle, ?_⟩
  rw [seamGrid_sweep_angle]
  rintro ⟨h1, -⟩
  exact lt_irrefl _ h1

lemma gaussian_gate_ineq : GaussianFilter 2 0 0 ≤ 8 * GaussianFilter 2 0 1 := by
  rw [GaussianFilter, GaussianFilter]
  have hD : (0 : ℝ) < 2 * Real.sqrt (2 * Real.pi) := by
    apply mul_pos two_pos
    apply Real.sqrt_pos.mpr
    positivity
  rw [← mul_div_assoc, div_le_div_iff hD hD]
  have e0 : (-0.5 * ((0 - 0) / 2) ^ 2 : ℝ) = 0 := by norm_num
  have e1 : (-0.5 * ((1 - 0) / 2) ^ 2 : ℝ) = -(1 / 8) := by norm_num
  rw [e0, e1, Real.exp_zero]
  have hexp : Real.exp (1 / 8 : ℝ) ≤ 8 := by
    have h1 : Real.exp (1 / 8 : ℝ) ≤ Real.exp 1 := Real.exp_le_exp.mpr (by norm_num)
    have h2 : Real.exp 1 < 2.7182818286 := Real.exp_one_lt_d9
    linarith
  have hp : (0 : ℝ) < Real.exp (-(1 / 8) : ℝ) := Real.exp_pos _
  have hkey : (1 : ℝ) ≤ 8 * Real.exp (-(1 / 8) : ℝ) := by
    rw [Real.exp_neg, ← div_eq_mul_inv, le_div_iff₀ (Real.exp_pos _), one_mul]
    exact hexp
  nlinarith [hD]

/-- Gate-crossing grid: three same-cluster cells with magnitudes 10, 1 and 2.
    In the first gated sweep the middle cell averages with its strong neighbor
    and its magnitude rises above 2, so in the second gated sweep it passes the
    last cell's gate even though its construction-time magnitude 1 does not. -/
def gateGrid : PixelMap := fun x y =>
  if x = 0 ∧ y = 0 then ⟨(0, 0), 0, 0, 0, 0, 10, 1⟩
  else if x = 0 ∧ y = 1 then ⟨(0, 1), 0, 0, 0, 0, 1, 1⟩
  else ⟨(0, 2), 0, 0, 0, 0, 2, 1⟩

lemma gateGrid_window1 : windowCoords 0 1 3 1 3 = [(0, 0), (0, 1), (0, 2)] := by
  decide

lemma gateGrid_window2 : windowCoords 0 2 3 1 3 = [(0, 1), (0, 2)] := by
  decide

lemma gateGrid_qnY :
    qualifiedNeighbors 0 2 3 gateGrid gateGrid 1 3 false = [gateGrid 0 2] := by
  rw [qualifiedNeighbors, gateGrid_window2, List.filterMap_cons, List.filterMap_cons,
    List.filterMap_nil]
  have hng : ¬ ((gateGrid 0 1).cluster = (gateGrid 0 2).cluster ∧
      ((false : Bool) = true ∨ (gateGrid 0 1).magnitude ≥ (gateGrid 0 2).magnitude)) := by
    rintro ⟨-, hor⟩
    rcases hor with hb | hge
    · cases hb
    · have h1 : (gateGrid 0 1).magnitude = 1 := by simp [gateGrid]
      have h2 : (gateGrid 0 2).magnitude = 2 := by simp [gateGrid]
      rw [h1, h2] at hge
      norm_num at hge
  rw [if_neg hng, if_pos ⟨rfl, Or.inr (le_refl _)⟩]

lemma gateGrid_s1Y : iterate 3 1 3 gateGrid blackImage false 0 2 = gateGrid 0 2 := by
  rw [iterate_apply (by norm_num) (by norm_num), sweepValue, gateGrid_qnY,
    if_pos (by norm_num : [gateGrid 0 2].length = 1)]

lemma gateGrid_qnX :
    qualifiedNeighbors 0 1 3 gateGrid gateGrid 1 3 false
      = [gateGrid 0 0, gateGrid 0 1, gateGrid 0 2] := by
  rw [qualifiedNeighbors, gateGrid_window1, List.filterMap_cons, List.filterMap_cons,
    List.filterMap_cons, List.filterMap_nil]
  have hcl0 : (gateGrid 0 0).cluster = (gateGrid 0 1).cluster := by simp [gateGrid]
  have hcl2 : (gateGrid 0 2).cluster = (gateGrid 0 1).cluster := by simp [gateGrid]
  have hm0 : (gateGrid 0 0).magnitude ≥ (gateGrid 0 1).magnitude := by
    have h1 : (gateGrid 0 0).magnitude = 10 := by simp [gateGrid]
    have h2 : (gateGrid 0 1).magnitude = 1 := by simp [gateGrid]
    rw [h1, h2]
    norm_num
  have hm2 : (gateGrid 0 2).magnitude ≥ (gateGrid 0 1).magnitude := by
    have h1 : (gateGrid 0 2).magnitude = 2 := by simp [gateGrid]
    have h2 : (gateGrid 0 1).magnitude = 1 := by simp [gateGrid]
    rw [h1, h2]
    norm_num
  rw [if_pos ⟨hcl0, Or.inr hm0⟩, if_pos ⟨rfl, Or.inr (le_refl _)⟩,
    if_pos ⟨hcl2, Or.inr hm2⟩]

lemma gateGrid_weighted :
    bilateral_filter (((0 : ℕ) : ℤ), ((1 : ℕ) : ℤ))
      [gateGrid 0 0, gateGrid 0 1, gateGrid 0 2] blackImage
      = [{ gateGrid 0 0 with
            weight := GaussianFilter 2 0 1 * GaussianFilter 10 0 0 },
         { gateGrid 0 1 with
            weight := GaussianFilter 2 0 0 * GaussianFilter 10 0 0 },
         { gateGrid 0 2 with
            weight := GaussianFilter 2 0 1 * GaussianFilter 10 0 0 }] := by
  norm_num [bilateral_filter, gateGrid, blackImage, vec2Sub, vec2Norm, vec3Sub,
    vec3Norm]

lemma gateGrid_M_ge :
    2 ≤ interpolate_magnitude
      [{ gateGrid 0 0 with
          weight := GaussianFilter 2 0 1 * GaussianFilter 10 0 0 },
       { gateGrid 0 1 with
          weight := GaussianFilter 2 0 0 * GaussianFilter 10 0 0 },
       { gateGrid 0 2 with
          weight := GaussianFilter 2 0 1 * GaussianFilter 10 0 0 }] := by
  have hA : (0 : ℝ) < GaussianFilter 2 0 0 := GaussianFilter_pos two_pos
  have hB : (0 : ℝ) < GaussianFilter 2 0 1 := GaussianFilter_pos two_pos
  have hC : (0 : ℝ) < GaussianFilter 10 0 0 := GaussianFilter_pos (by norm_num)
  have hm0 : (gateGrid 0 0).magnitude = 10 := by simp [gateGrid]
  have hm1 : (gateGrid 0 1).magnitude = 1 := by simp [gateGrid]
  have hm2 : (gateGrid 0 2).magnitude = 2 := by simp [gateGrid]
  rw [interpolate_magnitude]
  rw [sumWeights, sumWeights, sumWeights, sumWeights, sumWeightedMagnitudes,
    sumWeightedMagnitudes, sumWeightedMagnitudes, sumWeightedMagnitudes]
  simp only [hm0, hm1, hm2]
  have hW : (0 : ℝ) < GaussianFilter 2 0 1 * GaussianFilter 10 0 0
      + (GaussianFilter 2 0 0 * GaussianFilter 10 0 0
        + (GaussianFilter 2 0 1 * GaussianFilter 10 0 0 + 0)) := by
    positivity
  rw [le_div_iff₀ hW]
  nlinarith [mul_nonneg (sub_nonneg.mpr gaussian_gate_ineq) (le_of_lt hC)]

lemma gateGrid_s1X :
    iterate 3 1 3 gateGrid blackImage false 0 1
      = { gateGrid 0 1 with
            magnitude := interpolate_magnitude
              [{ gateGrid 0 0 with
                  weight := GaussianFilter 2 0 1 * GaussianFilter 10 0 0 },
               { gateGrid 0 1 with
                  weight := GaussianFilter 2 0 0 * GaussianFilter 10 0 0 },
               { gateGrid 0 2 with
                  weight := GaussianFilter 2 0 1 * GaussianFilter 10 0 0 }]
            angle := interpolate_angle
              [{ gateGrid 0 0 with
                  weight := GaussianFilter 2 0 1 * GaussianFilter 10 0 0 },
               { gateGrid 0 1 with
                  weight := GaussianFilter 2 0 0 * GaussianFilter 10 0 0 },
               { gateGrid 0 2 with
                  weight := GaussianFilter 2 0 1 * GaussianFilter 10 0 0 }] } := by
  rw [iterate_apply (by norm_num) (by norm_num), sweepValue, gateGrid_qnX,
    if_neg (by norm_num), gateGrid_weighted]

/-- C4 counterexample: on the gate-crossing grid, run two strength-gated
    sweeps.  In the second sweep the code's candidate set at the last cell has
    two members, because the middle cell's snapshot magnitude was raised above
    the center's by the first sweep, while the spec's candidate set, gated by
    the retained original magnitudes, has exactly one member: the middle
    cell's original magnitude 1 is below the center's original magnitude 2.
    So the code's gate does not compare construction-time magnitudes. -/
theorem c4_gate_snapshot_cex :
    (qualifiedNeighbors 0 2 3 (iterate 3 1 3 gateGrid blackImage false)
        (iterate 3 1 3 gateGrid blackImage false) 1 3 false).length = 2
      ∧ (qualifiedNeighborsOriginalGate 0 2 3
          (iterate 3 1 3 gateGrid blackImage false) gateGrid 1 3).length = 1
      ∧ (gateGrid 0 1).magnitude < (gateGrid 0 2).magnitude := by
  have hclX : (iterate 3 1 3 gateGrid blackImage false 0 1).cluster
      = (iterate 3 1 3 gateGrid blackImage false 0 2).cluster := by
    rw [iterate_cluster, iterate_cluster]
    simp [gateGrid]
  have hYmag : (iterate 3 1 3 gateGrid blackImage false 0 2).magnitude = 2 := by
    rw [gateGrid_s1Y]
    simp [gateGrid]
  have hXmag : 2 ≤ (iterate 3 1 3 gateGrid blackImage false 0 1).magnitude := by
    rw [gateGrid_s1X]
    exact gateGrid_M_ge
  refine ⟨?_, ?_, ?_⟩
  · rw [qualifiedNeighbors, gateGrid_window2, List.filterMap_cons,
      List.filterMap_cons, List.filterMap_nil]
    rw [if_pos ⟨hclX, Or.inr (by rw [ge_iff_le, hYmag]; exact hXmag)⟩,
      if_pos ⟨rfl, Or.inr (le_refl _)⟩]
    rfl
  · rw [qualifiedNeighborsOriginalGate, gateGrid_window2, List.filterMap_cons,
      List.filterMap_cons, List.filterMap_nil]
    have hng : ¬ ((iterate 3 1 3 gateGrid blackImage false 0 1).cluster
        = (iterate 3 1 3 gateGrid blackImage false 0 2).cluster ∧
        (gateGrid 0 1).magnitude ≥ (gateGrid 0 2).magnitude) := by
      rintro ⟨-, hge⟩
      have h1 : (gateGrid 0 1).magnitude = 1 := by simp [gateGrid]
      have h2 : (gateGrid 0 2).magnitude = 2 := by simp [gateGrid]
      rw [h1, h2] at hge
      norm_num at hge
    rw [if_neg hng, if_pos ⟨rfl, le_refl _⟩]
    rfl
  · have h1 : (gateGrid 0 1).magnitude = 1 := by simp [gateGrid]
    have h2 : (gateGrid 0 2).magnitude = 2 := by simp [gateGrid]
    rw [h1, h2]
    norm_num

/-- C4 (amended): with the gate active, the candidate set for a center cell
    consists exactly of the same-cluster cells of the clipped window whose
    magnitude in the sweep snapshot, i.e. the state produced by the previous
    sweep, is at least the center's snapshot magnitude.  The code retains no
    original construction-time magnitudes for the gate (it only writes them to
    a file before iterating); the counterexample shows the two gates differ. -/
theorem c4_gate_snapshot (r c k rows cols : ℕ) (s : PixelMap) (p : Pixel) :
    p ∈ qualifiedNeighbors r c k s s rows cols false ↔
      ∃ rr cc, (r - k / 2 ≤ rr ∧ rr ≤ min (rows - 1) (r + k / 2)
          ∧ c - k / 2 ≤ cc ∧ cc ≤ min (cols - 1) (c + k / 2))
        ∧ (s rr cc).cluster = (s r c).cluster
        ∧ (s r c).magnitude ≤ (s rr cc).magnitude
        ∧ p = s rr cc := by
  rw [mem_qualifiedNeighbors]
  constructor
  · rintro ⟨rr, cc, hw, h1, h2, h3⟩
    rcases h2 with hb | hge
    · cases hb
    · exact ⟨rr, cc, mem_windowCoords.mp hw, h1, hge, h3⟩
  · rintro ⟨rr, cc, hw, h1, hge, h3⟩
    exact ⟨rr, cc, mem_windowCoords.mpr hw, h1, Or.inr hge, h3⟩

end
